import Mathlib

/-!
# libRL: reflection loss kernel and grid evaluation (`src/tools/simple.cpp`)

Shallow embedding of `reflection_loss` and `Cgamma`.  The floating point
arithmetic of the source is read over the real and complex numbers:
`double` is `ℝ`, `complex<double>` is `ℂ`.  Division, `tanh` and `log10` are
the total functions of Mathlib (`x / 0 = 0`, `Real.log 0 = 0`), so the model
agrees with exact arithmetic wherever no denominator or logarithm argument
vanishes; infinities and NaN have no counterpart here.
-/

namespace LibRL

/-! ## Formula evaluator (source) -/

/-- The call `std::pow(z, y)` on a `complex<double>` base and a `double`
exponent: `exp (y * log z)` on the principal branch, `0` at `z = 0`. -/
noncomputable def cpowReal (z : ℂ) (y : ℝ) : ℂ := z ^ (y : ℂ)

/-- Reflection loss of `simple.cpp` lines 10-27.  The product
`pow(mur/er, 0.5) * tanh(j*cnsts*pow(er*mur, 0.5))` is written out twice,
as in the source. -/
noncomputable def reflection_loss (f d e1 e2 mu1 mu2 : ℝ) : ℝ :=
  let er : ℂ := ⟨e1, -1 * e2⟩
  let mur : ℂ := ⟨mu1, -1 * mu2⟩
  let j : ℂ := ⟨0.0, 1.0⟩
  let cnsts : ℂ :=
    ⟨2.0 * Real.pi * (f * (10.0 : ℝ) ^ (9.0 : ℝ)) * (d * (10.0 : ℝ) ^ (-3.0 : ℝ)) / 299792458.0, 0.0⟩
  let rl : ℂ := ((20.0 * Real.logb 10
    (Complex.abs
      (((cpowReal (mur / er) 0.5 * Complex.tanh (j * cnsts * cpowReal (er * mur) 0.5)) - 1.0)
        / ((cpowReal (mur / er) 0.5 * Complex.tanh (j * cnsts * cpowReal (er * mur) 0.5)) + 1.0))) : ℝ) : ℂ)
  rl.re

/-! ## Grid evaluator (source) -/

/-- Result of a run of C-API calls: the list object handed back to Python
(a slot never written is `none`, the `NULL` left by `PyList_New`) and whether
the interpreter's error indicator was set along the way. -/
structure PyOutcome where
  value : List (Option (List ℝ))
  err : Bool

/-- CPython `PyList_GetItem`: the item at `index`; out of range it returns
`NULL` (here `none`) and sets the error indicator. -/
def PyList_GetItem (l : List ℝ) (index : Nat) : Option ℝ := l[index]?

/-- CPython `PyFloat_AsDouble`: the value of a float object; on `NULL` it
returns `-1.0` and sets the error indicator (second component). -/
noncomputable def PyFloat_AsDouble : Option ℝ → ℝ × Bool
  | some x => (x, false)
  | none => (-1.0, true)

/-- The result list under construction together with the counter `count`. -/
structure Assembly where
  outer : List (Option (List ℝ))
  count : Nat

/-- Body of the inner loop, lines 68-75: build `[loss, f, d]`, store it at
`count`, increment `count`. -/
noncomputable def cellStep (NA : Fin 5 → Nat → ℝ) (d_cpp : Nat → ℝ) (i : Nat)
    (st : Assembly) (j : Nat) : Assembly :=
  let single_res : List ℝ :=
    [reflection_loss (NA 0 j) (d_cpp i) (NA 1 j) (NA 2 j) (NA 3 j) (NA 4 j), NA 0 j, d_cpp i]
  { outer := st.outer.set st.count (some single_res), count := st.count + 1 }

/-- The function `Cgamma` of lines 30-86.  Python lists of floats are lists of
reals; buffers are functions of the index, `NA i index` being what the copy
loop of lines 48-54 stores at `NA[i][index]`.  The `int` counters are natural
numbers: list lengths and their product are taken to fit in an `int`. -/
noncomputable def Cgamma (f d e1 e2 mu1 mu2 : List ℝ) : PyOutcome :=
  let f_length := f.length
  let d_length := d.length
  let NA_py : Fin 5 → List ℝ := ![f, e1, e2, mu1, mu2]
  let NA : Fin 5 → Nat → ℝ :=
    fun i index => (PyFloat_AsDouble (PyList_GetItem (NA_py i) index)).1
  let d_cpp : Nat → ℝ := fun index => (PyFloat_AsDouble (PyList_GetItem d index)).1
  let err : Bool :=
    ([0, 1, 2, 3, 4] : List (Fin 5)).any (fun i =>
      (List.range f_length).any (fun index =>
        (PyFloat_AsDouble (PyList_GetItem (NA_py i) index)).2))
    || (List.range d_length).any (fun index => (PyFloat_AsDouble (PyList_GetItem d index)).2)
  let outer : List (Option (List ℝ)) := List.replicate (d_length * f_length) none
  let st : Assembly :=
    (List.range d_length).foldl
      (fun st i => (List.range f_length).foldl (cellStep NA d_cpp i) st)
      { outer := outer, count := 0 }
  { value := st.outer, err := err }

/-- The entry point `gamma` of lines 88-97: `PyArg_ParseTuple` with format
`"OOOOOO"` accepts exactly six arguments, otherwise `NULL` is returned. -/
noncomputable def gamma (args : List (List ℝ)) : Option PyOutcome :=
  match args with
  | [f, d, e1, e2, mu1, mu2] => some (Cgamma f d e1 e2 mu1 mu2)
  | _ => none

/-! ## The formula of the specification -/

/-- Principal complex square root: modulus `√|z|`, argument `arg z / 2` with
`arg z ∈ (-π, π]`. -/
noncomputable def principalSqrt (z : ℂ) : ℂ :=
  (Real.sqrt (Complex.abs z) : ℂ) * Complex.exp (((Complex.arg z / 2 : ℝ) : ℂ) * Complex.I)

/-- Relative permittivity or permeability `a - i b` built from its real part
and loss magnitude. -/
noncomputable def lossy (a b : ℝ) : ℂ := (a : ℂ) - Complex.I * (b : ℂ)

/-- Propagation phase factor `2π f_Hz d_m / c` for `f` in GHz and `d` in mm. -/
noncomputable def phase (f d : ℝ) : ℝ :=
  2 * Real.pi * (f * 10 ^ 9) * (d * (10 ^ 3)⁻¹) / 299792458

/-- Input impedance term `η γ` of the specification, with
`η = √(μr / εr)` and `γ = tanh (i φ √(εr μr))`. -/
noncomputable def etaGamma (f d e1 e2 mu1 mu2 : ℝ) : ℂ :=
  principalSqrt (lossy mu1 mu2 / lossy e1 e2)
    * Complex.tanh (Complex.I * (phase f d : ℂ) * principalSqrt (lossy e1 e2 * lossy mu1 mu2))

/-- Reflection coefficient `Γ = (η γ - 1) / (η γ + 1)` of the specification. -/
noncomputable def reflectionCoeff (f d e1 e2 mu1 mu2 : ℝ) : ℂ :=
  (etaGamma f d e1 e2 mu1 mu2 - 1) / (etaGamma f d e1 e2 mu1 mu2 + 1)

/-- The specification's formula `20 log10 |Γ|`. -/
noncomputable def reflection_loss_spec (f d e1 e2 mu1 mu2 : ℝ) : ℝ :=
  20 * (Real.log (Complex.abs (reflectionCoeff f d e1 e2 mu1 mu2)) / Real.log 10)

/-! ## Reading the output of the grid -/

/-- One output triple `[loss, f, d]` for a frequency point and a thickness. -/
noncomputable def triple (fj dj a b c e : ℝ) : List ℝ :=
  [reflection_loss fj dj a b c e, fj, dj]

/-- What the copy loops store for position `index` of list `l`. -/
noncomputable def readDouble (l : List ℝ) (index : Nat) : ℝ :=
  (PyFloat_AsDouble (PyList_GetItem l index)).1

/-- The block of results for one thickness `dj`, in frequency order. -/
noncomputable def gridRow (f e1 e2 mu1 mu2 : List ℝ) (dj : ℝ) : List (Option (List ℝ)) :=
  (List.range f.length).map (fun j =>
    some (triple (readDouble f j) dj (readDouble e1 j) (readDouble e2 j)
      (readDouble mu1 j) (readDouble mu2 j)))

/-- The echoed `(thickness, frequency)` pair of an output element `[loss, f, d]`. -/
def echoed : Option (List ℝ) → Option (ℝ × ℝ)
  | some [_, fj, dj] => some (dj, fj)
  | _ => none

/-! ## The square root of the source is the principal square root -/

theorem cpowReal_half (z : ℂ) : cpowReal z 0.5 = principalSqrt z := by
  unfold cpowReal principalSqrt
  by_cases hz : z = 0
  · subst hz
    have : ((0.5 : ℝ) : ℂ) ≠ 0 := by norm_num
    simp [Complex.zero_cpow this]
  · have habs : 0 < Complex.abs z := Complex.abs.pos hz
    rw [Complex.cpow_def_of_ne_zero hz]
    have hlog : Complex.log z = ((Real.log (Complex.abs z) : ℝ) : ℂ) + ((Complex.arg z : ℝ) : ℂ) * Complex.I := by
      apply Complex.ext <;> simp [Complex.log_re, Complex.log_im]
    have hsqrt : Real.sqrt (Complex.abs z) = Real.exp (Real.log (Complex.abs z) / 2) := by
      rw [Real.sqrt_eq_rpow, Real.rpow_def_of_pos habs]
      congr 1
      ring
    rw [hsqrt, hlog, Complex.ofReal_exp, ← Complex.exp_add]
    congr 1
    push_cast
    norm_num
    ring

theorem lossy_eq (a b : ℝ) : (⟨a, -1 * b⟩ : ℂ) = lossy a b := by
  apply Complex.ext <;> simp [lossy]

theorem phase_eq (f d : ℝ) :
    2.0 * Real.pi * (f * (10.0 : ℝ) ^ (9.0 : ℝ)) * (d * (10.0 : ℝ) ^ (-3.0 : ℝ)) / 299792458.0
      = phase f d := by
  unfold phase
  have h9 : (10.0 : ℝ) ^ (9.0 : ℝ) = 10 ^ 9 := by
    have : (9.0 : ℝ) = ((9 : ℕ) : ℝ) := by norm_num
    rw [this, Real.rpow_natCast]
    norm_num
  have h3 : (10.0 : ℝ) ^ (-3.0 : ℝ) = (10 ^ 3)⁻¹ := by
    have : (-3.0 : ℝ) = -((3 : ℕ) : ℝ) := by norm_num
    rw [this, Real.rpow_neg (by norm_num), Real.rpow_natCast]
    norm_num
  rw [h9, h3]
  norm_num

theorem reflection_loss_eq_spec (f d e1 e2 mu1 mu2 : ℝ) :
    reflection_loss f d e1 e2 mu1 mu2 = reflection_loss_spec f d e1 e2 mu1 mu2 := by
  unfold reflection_loss reflection_loss_spec reflectionCoeff etaGamma
  simp only [Complex.ofReal_re]
  rw [lossy_eq, lossy_eq, cpowReal_half, cpowReal_half, phase_eq]
  have hj : (⟨0.0, 1.0⟩ : ℂ) = Complex.I := by
    apply Complex.ext <;> norm_num
  have hc : (⟨phase f d, 0.0⟩ : ℂ) = ((phase f d : ℝ) : ℂ) := by
    apply Complex.ext <;> norm_num
  rw [hj, hc]
  norm_num [Real.logb]

/-! ## Lossless materials -/

theorem principalSqrt_ofReal {r : ℝ} (hr : 0 ≤ r) : principalSqrt (r : ℂ) = (Real.sqrt r : ℂ) := by
  unfold principalSqrt
  rw [Complex.arg_ofReal_of_nonneg hr, Complex.abs_ofReal, abs_of_nonneg hr]
  simp

theorem lossy_zero (a : ℝ) : lossy a 0 = (a : ℂ) := by
  simp [lossy]

theorem abs_sub_one_eq_of_re_zero {z : ℂ} (hz : z.re = 0) :
    Complex.abs (z - 1) = Complex.abs (z + 1) := by
  rw [Complex.abs_apply, Complex.abs_apply, Complex.normSq_apply, Complex.normSq_apply]
  simp [hz]

theorem add_one_ne_zero_of_re_nonneg {z : ℂ} (hz : 0 ≤ z.re) : z + 1 ≠ 0 := by
  intro h
  have := congrArg Complex.re h
  simp at this
  linarith

theorem abs_coeff_of_re_zero {z : ℂ} (hz : z.re = 0) :
    Complex.abs ((z - 1) / (z + 1)) = 1 := by
  have hne : z + 1 ≠ 0 := add_one_ne_zero_of_re_nonneg (le_of_eq hz.symm)
  rw [map_div₀, abs_sub_one_eq_of_re_zero hz]
  exact div_self ((map_ne_zero Complex.abs).mpr hne)

/-- For real `t` the value `tanh (i t)` lies on the imaginary axis. -/
theorem tanh_I_mul_re (t : ℝ) : (Complex.tanh (Complex.I * (t : ℂ))).re = 0 := by
  rw [mul_comm, Complex.tanh_mul_I, ← Complex.ofReal_tan]
  simp

theorem lossless_eta {e1 mu1 : ℝ} (he : 0 < e1) (hm : 0 < mu1) :
    principalSqrt (lossy mu1 0 / lossy e1 0) = (Real.sqrt (mu1 / e1) : ℂ) := by
  rw [lossy_zero, lossy_zero, ← Complex.ofReal_div]
  exact principalSqrt_ofReal (le_of_lt (div_pos hm he))

theorem lossless_gamma_re (f d : ℝ) {e1 mu1 : ℝ} (he : 0 < e1) (hm : 0 < mu1) :
    (Complex.tanh (Complex.I * (phase f d : ℂ)
      * principalSqrt (lossy e1 0 * lossy mu1 0))).re = 0 := by
  rw [lossy_zero, lossy_zero, ← Complex.ofReal_mul,
    principalSqrt_ofReal (le_of_lt (mul_pos he hm)), mul_assoc, ← Complex.ofReal_mul]
  exact tanh_I_mul_re _

theorem lossless_etaGamma_re (f d : ℝ) {e1 mu1 : ℝ} (he : 0 < e1) (hm : 0 < mu1) :
    (etaGamma f d e1 0 mu1 0).re = 0 := by
  unfold etaGamma
  rw [lossless_eta he hm, Complex.re_ofReal_mul, lossless_gamma_re f d he hm, mul_zero]

theorem lossless_loss (f d : ℝ) {e1 mu1 : ℝ} (he : 0 < e1) (hm : 0 < mu1) :
    Complex.abs (reflectionCoeff f d e1 0 mu1 0) = 1
      ∧ reflection_loss f d e1 0 mu1 0 = 0 := by
  have h1 : Complex.abs (reflectionCoeff f d e1 0 mu1 0) = 1 :=
    abs_coeff_of_re_zero (lossless_etaGamma_re f d he hm)
  refine ⟨h1, ?_⟩
  rw [reflection_loss_eq_spec]
  unfold reflection_loss_spec
  rw [h1]
  simp

/-! ## Passive materials -/

theorem sinh_mul_cosh_ge {x : ℝ} (hx : 0 ≤ x) : x ≤ Real.sinh x * Real.cosh x := by
  have h1 : x ≤ Real.sinh x := Real.self_le_sinh_iff.mpr hx
  have h2 : 1 ≤ Real.cosh x := Real.one_le_cosh x
  have h3 : 0 ≤ Real.sinh x := le_trans hx h1
  nlinarith

theorem abs_sin_mul_cos_le {y : ℝ} (hy : 0 ≤ y) : |Real.sin y * Real.cos y| ≤ y := by
  rw [abs_mul]
  have h1 : |Real.sin y| ≤ |y| := Real.abs_sin_le_abs
  rw [abs_of_nonneg hy] at h1
  have h2 : |Real.cos y| ≤ 1 := Real.abs_cos_le_one y
  have h3 : 0 ≤ |Real.sin y| := abs_nonneg _
  have h4 : 0 ≤ |Real.cos y| := abs_nonneg _
  nlinarith

/-- Real part of `η tanh w` for `w = x + i y`, over the denominator `|cosh w|²`. -/
theorem tanh_re_formula (η : ℂ) (x y : ℝ) :
    (η * Complex.tanh ((x : ℂ) + (y : ℂ) * Complex.I)).re
      = (η.re * (Real.sinh x * Real.cosh x) - η.im * (Real.sin y * Real.cos y))
        / Complex.normSq (Complex.cosh ((x : ℂ) + (y : ℂ) * Complex.I)) := by
  rw [Complex.tanh_eq_sinh_div_cosh, ← mul_div_assoc, Complex.div_re, ← add_div]
  congr 1
  rw [Complex.sinh_add, Complex.cosh_add, Complex.sinh_mul_I, Complex.cosh_mul_I,
    ← Complex.ofReal_sinh, ← Complex.ofReal_cosh, ← Complex.ofReal_sin, ← Complex.ofReal_cos]
  simp only [Complex.mul_re, Complex.mul_im, Complex.add_re, Complex.add_im, Complex.ofReal_re,
    Complex.ofReal_im, Complex.I_re, Complex.I_im]
  have hs := Real.sin_sq_add_cos_sq y
  have hc := Real.cosh_sq x
  linear_combination (η.re * Real.sinh x * Real.cosh x) * hs
    - (η.im * Real.sin y * Real.cos y) * hc

theorem re_mul_tanh_nonneg (η n : ℂ) (φ : ℝ) (hφ : 0 ≤ φ) (hu : 0 ≤ η.re)
    (hp : 0 ≤ n.re) (hq : n.im ≤ 0) (h1 : (η * n).im ≤ 0)
    (h2 : (n * (starRingEnd ℂ) η).im ≤ 0) :
    0 ≤ (η * Complex.tanh (Complex.I * (φ : ℂ) * n)).re := by
  have hw : Complex.I * (φ : ℂ) * n
      = ((φ * (-n.im) : ℝ) : ℂ) + ((φ * n.re : ℝ) : ℂ) * Complex.I := by
    apply Complex.ext <;> simp
  rw [hw, tanh_re_formula]
  apply div_nonneg _ (Complex.normSq_nonneg _)
  have hx : 0 ≤ φ * (-n.im) := mul_nonneg hφ (by linarith)
  have hy : 0 ≤ φ * n.re := mul_nonneg hφ hp
  have hA := sinh_mul_cosh_ge hx
  have hB := abs_sin_mul_cos_le hy
  simp only [Complex.mul_im, Complex.conj_re, Complex.conj_im] at h1 h2
  have hB1 := (abs_le.mp hB).1
  have hB2 := (abs_le.mp hB).2
  have hv1 : η.im * n.re ≤ η.re * (-n.im) := by linarith
  have hv2 : -(η.im * n.re) ≤ η.re * (-n.im) := by linarith
  have key : η.im * (Real.sin (φ * n.re) * Real.cos (φ * n.re))
      ≤ η.re * (φ * (-n.im)) := by
    by_cases hv : 0 ≤ η.im
    · calc η.im * (Real.sin (φ * n.re) * Real.cos (φ * n.re))
          ≤ η.im * (φ * n.re) := mul_le_mul_of_nonneg_left hB2 hv
        _ = φ * (η.im * n.re) := by ring
        _ ≤ φ * (η.re * (-n.im)) := mul_le_mul_of_nonneg_left hv1 hφ
        _ = η.re * (φ * (-n.im)) := by ring
    · have hv' : 0 ≤ -η.im := by linarith
      calc η.im * (Real.sin (φ * n.re) * Real.cos (φ * n.re))
          = (-η.im) * (-(Real.sin (φ * n.re) * Real.cos (φ * n.re))) := by ring
        _ ≤ (-η.im) * (φ * n.re) := mul_le_mul_of_nonneg_left (by linarith) hv'
        _ = φ * (-(η.im * n.re)) := by ring
        _ ≤ φ * (η.re * (-n.im)) := mul_le_mul_of_nonneg_left hv2 hφ
        _ = η.re * (φ * (-n.im)) := by ring
  have : η.re * (φ * (-n.im))
      ≤ η.re * (Real.sinh (φ * (-n.im)) * Real.cosh (φ * (-n.im))) :=
    mul_le_mul_of_nonneg_left hA hu
  linarith

theorem principalSqrt_re_nonneg (z : ℂ) : 0 ≤ (principalSqrt z).re := by
  unfold principalSqrt
  rw [Complex.re_ofReal_mul, Complex.exp_ofReal_mul_I_re]
  apply mul_nonneg (Real.sqrt_nonneg _)
  apply Real.cos_nonneg_of_neg_pi_div_two_le_of_le
  · have := Complex.neg_pi_lt_arg z
    linarith
  · have := Complex.arg_le_pi z
    linarith

theorem principalSqrt_im_nonpos {z : ℂ} (hz : Complex.arg z ≤ 0) : (principalSqrt z).im ≤ 0 := by
  unfold principalSqrt
  rw [Complex.im_ofReal_mul, Complex.exp_ofReal_mul_I_im]
  apply mul_nonpos_of_nonneg_of_nonpos (Real.sqrt_nonneg _)
  apply Real.sin_nonpos_of_nonnpos_of_neg_pi_le
  · linarith
  · have := Complex.neg_pi_lt_arg z
    have := Real.pi_pos
    linarith

theorem principalSqrt_eq_exp {z : ℂ} (hz : z ≠ 0) :
    principalSqrt z = Complex.exp (Complex.log z / 2) := by
  rw [← cpowReal_half, cpowReal, Complex.cpow_def_of_ne_zero hz]
  congr 1
  norm_num
  ring

theorem lossy_re (a b : ℝ) : (lossy a b).re = a := by simp [lossy]

theorem lossy_im (a b : ℝ) : (lossy a b).im = -b := by simp [lossy]

theorem lossy_ne_zero {a : ℝ} (b : ℝ) (ha : 0 < a) : lossy a b ≠ 0 := by
  intro h
  have := congrArg Complex.re h
  rw [lossy_re] at this
  simp at this
  linarith

theorem arg_lossy {a b : ℝ} (ha : 0 < a) (hb : 0 ≤ b) :
    -(Real.pi / 2) < Complex.arg (lossy a b) ∧ Complex.arg (lossy a b) ≤ 0 := by
  constructor
  · have h : |Complex.arg (lossy a b)| < Real.pi / 2 :=
      Complex.abs_arg_lt_pi_div_two_iff.mpr (Or.inl (by rw [lossy_re]; exact ha))
    exact (abs_lt.mp h).1
  · rcases eq_or_lt_of_le hb with hb0 | hb0
    · subst hb0
      rw [lossy_zero, Complex.arg_ofReal_of_nonneg (le_of_lt ha)]
    · apply le_of_lt
      apply Complex.arg_neg_iff.mpr
      rw [lossy_im]
      linarith

theorem log_mul_lossy {a b c e : ℝ} (ha : 0 < a) (hb : 0 ≤ b) (hc : 0 < c) (he : 0 ≤ e) :
    Complex.log (lossy a b * lossy c e) = Complex.log (lossy a b) + Complex.log (lossy c e) := by
  apply Complex.log_mul (lossy_ne_zero b ha) (lossy_ne_zero e hc)
  have h1 := arg_lossy ha hb
  have h2 := arg_lossy hc he
  have := Real.pi_pos
  constructor <;> linarith [h1.1, h1.2, h2.1, h2.2]

theorem log_div_lossy {a b c e : ℝ} (ha : 0 < a) (hb : 0 ≤ b) (hc : 0 < c) (he : 0 ≤ e) :
    Complex.log (lossy c e / lossy a b) = Complex.log (lossy c e) - Complex.log (lossy a b) := by
  have h1 := arg_lossy ha hb
  have h2 := arg_lossy hc he
  have hpi := Real.pi_pos
  have hne : Complex.arg (lossy a b) ≠ Real.pi := by
    intro h
    linarith [h1.2]
  rw [div_eq_mul_inv, Complex.log_mul (lossy_ne_zero e hc) (inv_ne_zero (lossy_ne_zero b ha)),
    Complex.log_inv _ hne, sub_eq_add_neg]
  rw [Complex.arg_inv, if_neg hne]
  constructor <;> linarith [h1.1, h1.2, h2.1, h2.2]

theorem arg_mul_lossy_nonpos {a b c e : ℝ} (ha : 0 < a) (hb : 0 ≤ b) (hc : 0 < c) (he : 0 ≤ e) :
    Complex.arg (lossy a b * lossy c e) ≤ 0 := by
  have h := congrArg Complex.im (log_mul_lossy ha hb hc he)
  rw [Complex.add_im, Complex.log_im, Complex.log_im, Complex.log_im] at h
  rw [h]
  linarith [(arg_lossy ha hb).2, (arg_lossy hc he).2]

/-- With `η = √(μr / εr)` and `n = √(εr μr)`: `η n = μr`. -/
theorem eta_mul_index {e1 e2 mu1 mu2 : ℝ} (he1 : 0 < e1) (he2 : 0 ≤ e2)
    (hm1 : 0 < mu1) (hm2 : 0 ≤ mu2) :
    principalSqrt (lossy mu1 mu2 / lossy e1 e2) * principalSqrt (lossy e1 e2 * lossy mu1 mu2)
      = lossy mu1 mu2 := by
  have hε := lossy_ne_zero e2 he1
  have hμ := lossy_ne_zero mu2 hm1
  rw [principalSqrt_eq_exp (div_ne_zero hμ hε), principalSqrt_eq_exp (mul_ne_zero hε hμ),
    log_div_lossy he1 he2 hm1 hm2, log_mul_lossy he1 he2 hm1 hm2, ← Complex.exp_add]
  have : (Complex.log (lossy mu1 mu2) - Complex.log (lossy e1 e2)) / 2
      + (Complex.log (lossy e1 e2) + Complex.log (lossy mu1 mu2)) / 2
      = Complex.log (lossy mu1 mu2) := by ring
  rw [this, Complex.exp_log hμ]

/-- With `η = √(μr / εr)` and `n = √(εr μr)`: `η εr = n`. -/
theorem eta_mul_eps {e1 e2 mu1 mu2 : ℝ} (he1 : 0 < e1) (he2 : 0 ≤ e2)
    (hm1 : 0 < mu1) (hm2 : 0 ≤ mu2) :
    principalSqrt (lossy mu1 mu2 / lossy e1 e2) * lossy e1 e2
      = principalSqrt (lossy e1 e2 * lossy mu1 mu2) := by
  have hε := lossy_ne_zero e2 he1
  have hμ := lossy_ne_zero mu2 hm1
  rw [principalSqrt_eq_exp (div_ne_zero hμ hε), principalSqrt_eq_exp (mul_ne_zero hε hμ),
    log_div_lossy he1 he2 hm1 hm2, log_mul_lossy he1 he2 hm1 hm2]
  nth_rewrite 2 [← Complex.exp_log hε]
  rw [← Complex.exp_add]
  congr 1
  ring

theorem passive_etaGamma_re {f d e1 e2 mu1 mu2 : ℝ} (hf : 0 ≤ f) (hd : 0 ≤ d)
    (he1 : 0 < e1) (he2 : 0 ≤ e2) (hm1 : 0 < mu1) (hm2 : 0 ≤ mu2) :
    0 ≤ (etaGamma f d e1 e2 mu1 mu2).re := by
  unfold etaGamma
  have hφ : 0 ≤ phase f d := by
    unfold phase
    have := Real.pi_pos
    positivity
  apply re_mul_tanh_nonneg _ _ _ hφ (principalSqrt_re_nonneg _) (principalSqrt_re_nonneg _)
    (principalSqrt_im_nonpos (arg_mul_lossy_nonpos he1 he2 hm1 hm2))
  · rw [eta_mul_index he1 he2 hm1 hm2, lossy_im]
    linarith
  · rw [← eta_mul_eps he1 he2 hm1 hm2]
    have : principalSqrt (lossy mu1 mu2 / lossy e1 e2) * lossy e1 e2
        * (starRingEnd ℂ) (principalSqrt (lossy mu1 mu2 / lossy e1 e2))
        = ((Complex.normSq (principalSqrt (lossy mu1 mu2 / lossy e1 e2)) : ℝ) : ℂ)
          * lossy e1 e2 := by
      rw [Complex.normSq_eq_conj_mul_self]
      ring
    rw [this, Complex.im_ofReal_mul, lossy_im]
    have := Complex.normSq_nonneg (principalSqrt (lossy mu1 mu2 / lossy e1 e2))
    nlinarith

theorem abs_coeff_le_one {z : ℂ} (hz : 0 ≤ z.re) : Complex.abs ((z - 1) / (z + 1)) ≤ 1 := by
  have hne : z + 1 ≠ 0 := add_one_ne_zero_of_re_nonneg hz
  have hpos : 0 < Complex.abs (z + 1) := Complex.abs.pos hne
  rw [map_div₀, div_le_one hpos, Complex.abs_apply, Complex.abs_apply]
  apply Real.sqrt_le_sqrt
  rw [Complex.normSq_apply, Complex.normSq_apply]
  simp only [Complex.sub_re, Complex.sub_im, Complex.add_re, Complex.add_im, Complex.one_re,
    Complex.one_im]
  nlinarith

theorem passive_loss {f d e1 e2 mu1 mu2 : ℝ} (hf : 0 ≤ f) (hd : 0 ≤ d)
    (he1 : 0 < e1) (he2 : 0 ≤ e2) (hm1 : 0 < mu1) (hm2 : 0 ≤ mu2) :
    Complex.abs (reflectionCoeff f d e1 e2 mu1 mu2) ≤ 1
      ∧ reflection_loss f d e1 e2 mu1 mu2 ≤ 0 := by
  have h1 : Complex.abs (reflectionCoeff f d e1 e2 mu1 mu2) ≤ 1 :=
    abs_coeff_le_one (passive_etaGamma_re hf hd he1 he2 hm1 hm2)
  refine ⟨h1, ?_⟩
  rw [reflection_loss_eq_spec]
  unfold reflection_loss_spec
  have hlog : Real.log (Complex.abs (reflectionCoeff f d e1 e2 mu1 mu2)) ≤ 0 :=
    Real.log_nonpos (Complex.abs.nonneg _) h1
  have h10 : 0 < Real.log 10 := Real.log_pos (by norm_num)
  have : Real.log (Complex.abs (reflectionCoeff f d e1 e2 mu1 mu2)) / Real.log 10 ≤ 0 :=
    div_nonpos_of_nonpos_of_nonneg hlog (le_of_lt h10)
  linarith

/-! ## The assembly loops -/

theorem foldl_set_fill {β : Type} (g : β → List ℝ) (js : List β) :
    ∀ (done : List (Option (List ℝ))) (m : Nat), js.length ≤ m →
      js.foldl (fun (st : Assembly) j =>
          ({ outer := st.outer.set st.count (some (g j)), count := st.count + 1 } : Assembly))
        { outer := done ++ List.replicate m none, count := done.length }
      = { outer := done ++ js.map (fun j => some (g j)) ++ List.replicate (m - js.length) none,
          count := done.length + js.length } := by
  induction js with
  | nil => intro done m _; simp
  | cons j js ih =>
    intro done m hm
    simp only [List.length_cons] at hm
    obtain ⟨m', rfl⟩ : ∃ m', m = m' + 1 := ⟨m - 1, by omega⟩
    have hset : (done ++ List.replicate (m' + 1) none).set done.length (some (g j))
        = (done ++ [some (g j)]) ++ List.replicate m' (none : Option (List ℝ)) := by
      rw [List.set_append_right _ _ (le_refl _)]
      simp [List.replicate_succ]
    have hlen : done.length + 1 = (done ++ [some (g j)]).length := by simp
    simp only [List.foldl_cons, hset, hlen]
    rw [ih (done ++ [some (g j)]) m' (by omega)]
    simp [Nat.add_assoc, Nat.add_comm 1]

theorem inner_fill (NA : Fin 5 → Nat → ℝ) (d_cpp : Nat → ℝ) (i F : Nat)
    (done : List (Option (List ℝ))) (m : Nat) (h : F ≤ m) :
    (List.range F).foldl (cellStep NA d_cpp i)
        { outer := done ++ List.replicate m none, count := done.length }
      = { outer := done ++ (List.range F).map (fun j =>
              some (triple (NA 0 j) (d_cpp i) (NA 1 j) (NA 2 j) (NA 3 j) (NA 4 j)))
            ++ List.replicate (m - F) none,
          count := done.length + F } := by
  have := foldl_set_fill
    (fun j => triple (NA 0 j) (d_cpp i) (NA 1 j) (NA 2 j) (NA 3 j) (NA 4 j))
    (List.range F) done m (by simpa using h)
  simpa [cellStep, triple] using this

theorem outer_fill (NA : Fin 5 → Nat → ℝ) (d_cpp : Nat → ℝ) (F : Nat) (is : List Nat) :
    ∀ (done : List (Option (List ℝ))) (m : Nat), is.length * F ≤ m →
      is.foldl (fun st i => (List.range F).foldl (cellStep NA d_cpp i) st)
          { outer := done ++ List.replicate m none, count := done.length }
        = { outer := done ++ is.flatMap (fun i => (List.range F).map (fun j =>
                some (triple (NA 0 j) (d_cpp i) (NA 1 j) (NA 2 j) (NA 3 j) (NA 4 j))))
              ++ List.replicate (m - is.length * F) none,
            count := done.length + is.length * F } := by
  induction is with
  | nil => intro done m _; simp
  | cons i is ih =>
    intro done m hm
    simp only [List.length_cons, Nat.add_mul, Nat.one_mul] at hm
    rw [List.foldl_cons, inner_fill NA d_cpp i F done m (by omega)]
    have hrow := ih (done ++ (List.range F).map (fun j =>
      some (triple (NA 0 j) (d_cpp i) (NA 1 j) (NA 2 j) (NA 3 j) (NA 4 j)))) (m - F) (by omega)
    simp only [List.length_append, List.length_map, List.length_range] at hrow
    rw [hrow]
    have h1 : m - F - is.length * F = m - (is.length * F + F) := by omega
    have h2 : done.length + F + is.length * F = done.length + (is.length * F + F) := by omega
    simp only [List.length_cons, List.flatMap_cons, List.append_assoc, Nat.add_mul, Nat.one_mul,
      h1, h2]

theorem map_readDouble_range (l : List ℝ) :
    (List.range l.length).map (readDouble l) = l := by
  apply List.ext_getElem
  · simp
  · intro n h1 h2
    simp [readDouble, PyList_GetItem, PyFloat_AsDouble, List.getElem?_eq_getElem h2]

/-- Closed form of the list assembled by `Cgamma`: the rows of the
thicknesses, one after the other. -/
theorem Cgamma_value (f d e1 e2 mu1 mu2 : List ℝ) :
    (Cgamma f d e1 e2 mu1 mu2).value = d.flatMap (gridRow f e1 e2 mu1 mu2) := by
  have h := outer_fill
    (fun i index => (PyFloat_AsDouble (PyList_GetItem ((![f, e1, e2, mu1, mu2] : Fin 5 → List ℝ) i) index)).1)
    (fun index => (PyFloat_AsDouble (PyList_GetItem d index)).1)
    f.length (List.range d.length) [] (d.length * f.length) (by simp)
  simp only [List.nil_append, List.length_nil, List.length_range, Nat.sub_self,
    List.replicate_zero, List.append_nil, Nat.zero_add] at h
  unfold Cgamma
  simp only [h]
  conv_rhs => rw [← map_readDouble_range d, List.flatMap_map]
  rfl

theorem readDouble_of_get {l : List ℝ} {j : Nat} {x : ℝ} (h : l[j]? = some x) :
    readDouble l j = x := by
  simp [readDouble, PyList_GetItem, PyFloat_AsDouble, h]

theorem read_ok (l : List ℝ) {index : Nat} (h : index < l.length) :
    (PyFloat_AsDouble (PyList_GetItem l index)).2 = false := by
  simp [PyList_GetItem, PyFloat_AsDouble, List.getElem?_eq_getElem h]

theorem any_read_false (l : List ℝ) {n : Nat} (h : n ≤ l.length) :
    (List.range n).any (fun index => (PyFloat_AsDouble (PyList_GetItem l index)).2) = false := by
  rw [List.any_eq_false]
  intro index hmem
  rw [List.mem_range] at hmem
  simp [read_ok l (lt_of_lt_of_le hmem h)]

/-- No read fails when every coefficient list has at least `F` entries. -/
theorem Cgamma_err_false (f d e1 e2 mu1 mu2 : List ℝ) (h1 : f.length ≤ e1.length)
    (h2 : f.length ≤ e2.length) (h3 : f.length ≤ mu1.length) (h4 : f.length ≤ mu2.length) :
    (Cgamma f d e1 e2 mu1 mu2).err = false := by
  unfold Cgamma
  simp only [List.any_cons, List.any_nil, Bool.or_false, Matrix.cons_val_zero,
    Matrix.cons_val_one, Matrix.head_cons, Matrix.cons_val_two, Matrix.tail_cons,
    Matrix.cons_val_three, Matrix.cons_val_four,
    any_read_false f (le_refl _), any_read_false e1 h1, any_read_false e2 h2,
    any_read_false mu1 h3, any_read_false mu2 h4, any_read_false d (le_refl _), Bool.or_self]

theorem gridRow_length (f e1 e2 mu1 mu2 : List ℝ) (dj : ℝ) :
    (gridRow f e1 e2 mu1 mu2 dj).length = f.length := by
  simp [gridRow]

theorem flatMap_rows_length {α β : Type} (row : α → List β) (F : Nat)
    (hrow : ∀ x, (row x).length = F) (d : List α) :
    (d.flatMap row).length = d.length * F := by
  induction d with
  | nil => simp
  | cons x xs ih =>
    simp only [List.flatMap_cons, List.length_append, List.length_cons, hrow, ih]
    ring

/-- Position `k` of a concatenation of rows of common length `F` is position
`k % F` of row `k / F`. -/
theorem flatMap_rows_get {α β : Type} (row : α → List β) (F : Nat)
    (hrow : ∀ x, (row x).length = F) :
    ∀ (d : List α) (k : Nat), k < d.length * F →
      ∃ x, d[k / F]? = some x ∧ (d.flatMap row)[k]? = (row x)[k % F]? := by
  intro d
  induction d with
  | nil => intro k hk; simp at hk
  | cons x xs ih =>
    intro k hk
    have hF : 0 < F := by
      rcases Nat.eq_zero_or_pos F with h | h
      · subst h; simp at hk
      · exact h
    simp only [List.length_cons, Nat.add_mul, Nat.one_mul] at hk
    by_cases hlt : k < F
    · refine ⟨x, ?_, ?_⟩
      · simp [Nat.div_eq_of_lt hlt]
      · rw [List.flatMap_cons, List.getElem?_append_left (by rw [hrow]; exact hlt),
          Nat.mod_eq_of_lt hlt]
    · have hge : F ≤ k := Nat.le_of_not_lt hlt
      obtain ⟨y, hy1, hy2⟩ := ih (k - F) (by omega)
      have hdiv : k / F = (k - F) / F + 1 := by
        rw [Nat.div_eq_sub_div hF hge]
      have hmod : k % F = (k - F) % F := Nat.mod_eq_sub_mod hge
      refine ⟨y, ?_, ?_⟩
      · rw [hdiv, List.getElem?_cons_succ]
        exact hy1
      · rw [List.flatMap_cons, List.getElem?_append_right (by rw [hrow]; exact hge), hrow,
          hmod]
        exact hy2

/-- Entry `k` of the output of `Cgamma`, read off the inputs. -/
theorem Cgamma_get (f d e1 e2 mu1 mu2 : List ℝ) (k : Nat)
    (hk : k < d.length * f.length) :
    ∃ dj, d[k / f.length]? = some dj ∧
      (Cgamma f d e1 e2 mu1 mu2).value[k]?
        = some (some (triple (readDouble f (k % f.length)) dj
            (readDouble e1 (k % f.length)) (readDouble e2 (k % f.length))
            (readDouble mu1 (k % f.length)) (readDouble mu2 (k % f.length)))) := by
  obtain ⟨dj, h1, h2⟩ := flatMap_rows_get (gridRow f e1 e2 mu1 mu2) f.length
    (gridRow_length f e1 e2 mu1 mu2) d k hk
  refine ⟨dj, h1, ?_⟩
  rw [Cgamma_value, h2]
  have hF : 0 < f.length := by
    rcases Nat.eq_zero_or_pos f.length with h | h
    · rw [h] at hk; simp at hk
    · exact h
  have hj : k % f.length < f.length := Nat.mod_lt _ hF
  simp [gridRow, List.getElem?_map, List.getElem?_range hj]

theorem Cgamma_length (f d e1 e2 mu1 mu2 : List ℝ) :
    (Cgamma f d e1 e2 mu1 mu2).value.length = d.length * f.length := by
  rw [Cgamma_value]
  exact flatMap_rows_length _ _ (gridRow_length f e1 e2 mu1 mu2) d

theorem Cgamma_append_value (f d1 d2 e1 e2 mu1 mu2 : List ℝ) :
    (Cgamma f (d1 ++ d2) e1 e2 mu1 mu2).value
      = (Cgamma f d1 e1 e2 mu1 mu2).value ++ (Cgamma f d2 e1 e2 mu1 mu2).value := by
  simp only [Cgamma_value, List.flatMap_append]

theorem readDouble_take (l : List ℝ) {j n : Nat} (h : j < n) :
    readDouble (l.take n) j = readDouble l j := by
  simp [readDouble, PyList_GetItem, List.getElem?_take, h]

theorem gridRow_take (f e1 e2 mu1 mu2 : List ℝ) :
    gridRow f (e1.take f.length) (e2.take f.length) (mu1.take f.length) (mu2.take f.length)
      = gridRow f e1 e2 mu1 mu2 := by
  funext dj
  unfold gridRow
  apply List.map_congr_left
  intro j hj
  rw [List.mem_range] at hj
  rw [readDouble_take e1 hj, readDouble_take e2 hj, readDouble_take mu1 hj,
    readDouble_take mu2 hj]

theorem principalSqrt_mul_self (z : ℂ) : principalSqrt z * principalSqrt z = z := by
  by_cases hz : z = 0
  · subst hz
    simp [principalSqrt]
  · rw [principalSqrt_eq_exp hz, ← Complex.exp_add, add_halves, Complex.exp_log hz]

theorem principalSqrt_im_nonneg_of_re_zero (z : ℂ) (h : (principalSqrt z).re = 0) :
    0 ≤ (principalSqrt z).im := by
  unfold principalSqrt at h ⊢
  rw [Complex.re_ofReal_mul, Complex.exp_ofReal_mul_I_re] at h
  rw [Complex.im_ofReal_mul, Complex.exp_ofReal_mul_I_im]
  apply mul_nonneg (Real.sqrt_nonneg _)
  rcases mul_eq_zero.mp h with h0 | h0
  · have hz : Complex.abs z = 0 :=
      le_antisymm (Real.sqrt_eq_zero'.mp h0) (Complex.abs.nonneg z)
    have : z = 0 := (map_eq_zero Complex.abs).mp hz
    subst this
    simp
  · apply Real.sin_nonneg_of_nonneg_of_le_pi
    · by_contra hneg
      push_neg at hneg
      have hpos : 0 < Real.cos (Complex.arg z / 2) := by
        apply Real.cos_pos_of_mem_Ioo
        constructor
        · have := Complex.neg_pi_lt_arg z
          linarith
        · have := Real.pi_pos
          linarith
      linarith
    · have := Complex.arg_le_pi z
      have := Real.pi_pos
      linarith

/-! ## The claims -/

/-- C1: `reflection_loss` is `20 log10 |(η γ - 1) / (η γ + 1)|` with
`εr = e1 - i e2`, `μr = mu1 - i mu2`, `φ = 2π (f 10^9) (d 10^-3) / 299792458`,
`η = √(μr / εr)` and `γ = tanh (i φ √(εr μr))`, where `√` is the principal
complex square root: the root with non-negative real part, and non-negative
imaginary part on the imaginary axis. -/
theorem reflection_loss_formula :
    (∀ f d e1 e2 mu1 mu2 : ℝ,
      reflection_loss f d e1 e2 mu1 mu2
        = 20 * Real.logb 10 (Complex.abs
            ((principalSqrt (((mu1 : ℂ) - Complex.I * (mu2 : ℂ)) / ((e1 : ℂ) - Complex.I * (e2 : ℂ)))
                * Complex.tanh (Complex.I
                    * ((2 * Real.pi * (f * 10 ^ 9) * (d * 10 ^ (-3 : ℤ)) / 299792458 : ℝ) : ℂ)
                    * principalSqrt (((e1 : ℂ) - Complex.I * (e2 : ℂ))
                        * ((mu1 : ℂ) - Complex.I * (mu2 : ℂ)))) - 1)
              / (principalSqrt (((mu1 : ℂ) - Complex.I * (mu2 : ℂ)) / ((e1 : ℂ) - Complex.I * (e2 : ℂ)))
                * Complex.tanh (Complex.I
                    * ((2 * Real.pi * (f * 10 ^ 9) * (d * 10 ^ (-3 : ℤ)) / 299792458 : ℝ) : ℂ)
                    * principalSqrt (((e1 : ℂ) - Complex.I * (e2 : ℂ))
                        * ((mu1 : ℂ) - Complex.I * (mu2 : ℂ)))) + 1))))
    ∧ ∀ z : ℂ, cpowReal z 0.5 = principalSqrt z
        ∧ principalSqrt z * principalSqrt z = z
        ∧ 0 ≤ (principalSqrt z).re
        ∧ ((principalSqrt z).re = 0 → 0 ≤ (principalSqrt z).im) := by
  constructor
  · intro f d e1 e2 mu1 mu2
    rw [reflection_loss_eq_spec]
    have hz : (10 : ℝ) ^ (-3 : ℤ) = (10 ^ 3)⁻¹ := by norm_num
    simp only [reflection_loss_spec, reflectionCoeff, etaGamma, lossy, phase, Real.logb, hz]
  · intro z
    exact ⟨cpowReal_half z, principalSqrt_mul_self z, principalSqrt_re_nonneg z,
      principalSqrt_im_nonneg_of_re_zero z⟩

/-- C2: for a thickness list of length `D` and five parameter lists of length
`F`, `Cgamma` returns, without error, a list of exactly `D * F` elements, each
a list of three numbers. -/
theorem Cgamma_shape (f d e1 e2 mu1 mu2 : List ℝ) (h1 : e1.length = f.length)
    (h2 : e2.length = f.length) (h3 : mu1.length = f.length) (h4 : mu2.length = f.length) :
    (Cgamma f d e1 e2 mu1 mu2).err = false
      ∧ (Cgamma f d e1 e2 mu1 mu2).value.length = d.length * f.length
      ∧ ∀ x ∈ (Cgamma f d e1 e2 mu1 mu2).value, ∃ t : List ℝ, x = some t ∧ t.length = 3 := by
  refine ⟨Cgamma_err_false f d e1 e2 mu1 mu2 (le_of_eq h1.symm) (le_of_eq h2.symm)
    (le_of_eq h3.symm) (le_of_eq h4.symm), Cgamma_length f d e1 e2 mu1 mu2, ?_⟩
  intro x hx
  rw [Cgamma_value, List.mem_flatMap] at hx
  obtain ⟨dj, _, hrow⟩ := hx
  simp only [gridRow, List.mem_map] at hrow
  obtain ⟨j, _, rfl⟩ := hrow
  exact ⟨_, rfl, rfl⟩

theorem Cgamma_shape_witness :
    (Cgamma [5, 10] [1, 2] [10, 15] [1, 2] [1, 1] [0, 0]).err = false
      ∧ (Cgamma [5, 10] [1, 2] [10, 15] [1, 2] [1, 1] [0, 0]).value.length = 2 * 2
      ∧ ∀ x ∈ (Cgamma [5, 10] [1, 2] [10, 15] [1, 2] [1, 1] [0, 0]).value,
          ∃ t : List ℝ, x = some t ∧ t.length = 3 :=
  Cgamma_shape [5, 10] [1, 2] [10, 15] [1, 2] [1, 1] [0, 0] rfl rfl rfl rfl

/-- C3: with five parameter lists of length `F` and `k < D * F`, the first
field of output element `k` is `reflection_loss` at frequency point `k % F`
and thickness `k / F` (thickness-major, frequency-minor order). -/
theorem Cgamma_loss_order (f d e1 e2 mu1 mu2 : List ℝ) (h1 : e1.length = f.length)
    (h2 : e2.length = f.length) (h3 : mu1.length = f.length) (h4 : mu2.length = f.length)
    (k : Nat) (hk : k < d.length * f.length) :
    ∃ fj dj a b c e : ℝ,
      f[k % f.length]? = some fj ∧ d[k / f.length]? = some dj
        ∧ e1[k % f.length]? = some a ∧ e2[k % f.length]? = some b
        ∧ mu1[k % f.length]? = some c ∧ mu2[k % f.length]? = some e
        ∧ ∃ t : List ℝ, (Cgamma f d e1 e2 mu1 mu2).value[k]? = some (some t)
            ∧ t[0]? = some (reflection_loss fj dj a b c e) := by
  obtain ⟨dj, hd, hval⟩ := Cgamma_get f d e1 e2 mu1 mu2 k hk
  have hF : 0 < f.length := by
    rcases Nat.eq_zero_or_pos f.length with h | h
    · rw [h] at hk; simp at hk
    · exact h
  have hj : k % f.length < f.length := Nat.mod_lt _ hF
  have g0 : f[k % f.length]? = some (f[k % f.length]) := List.getElem?_eq_getElem hj
  have g1 : e1[k % f.length]? = some (e1[k % f.length]) := List.getElem?_eq_getElem (h1 ▸ hj)
  have g2 : e2[k % f.length]? = some (e2[k % f.length]) := List.getElem?_eq_getElem (h2 ▸ hj)
  have g3 : mu1[k % f.length]? = some (mu1[k % f.length]) := List.getElem?_eq_getElem (h3 ▸ hj)
  have g4 : mu2[k % f.length]? = some (mu2[k % f.length]) := List.getElem?_eq_getElem (h4 ▸ hj)
  refine ⟨_, dj, _, _, _, _, g0, hd, g1, g2, g3, g4, _, hval, ?_⟩
  rw [readDouble_of_get g0, readDouble_of_get g1, readDouble_of_get g2,
    readDouble_of_get g3, readDouble_of_get g4]
  rfl

theorem Cgamma_loss_order_witness :
    ∃ fj dj a b c e : ℝ,
      ([5, 10] : List ℝ)[2 % 2]? = some fj ∧ ([1, 2] : List ℝ)[2 / 2]? = some dj
        ∧ ([10, 15] : List ℝ)[2 % 2]? = some a ∧ ([1, 2] : List ℝ)[2 % 2]? = some b
        ∧ ([1, 1] : List ℝ)[2 % 2]? = some c ∧ ([0, 0] : List ℝ)[2 % 2]? = some e
        ∧ ∃ t : List ℝ,
            (Cgamma [5, 10] [1, 2] [10, 15] [1, 2] [1, 1] [0, 0]).value[2]? = some (some t)
            ∧ t[0]? = some (reflection_loss fj dj a b c e) :=
  Cgamma_loss_order [5, 10] [1, 2] [10, 15] [1, 2] [1, 1] [0, 0] rfl rfl rfl rfl 2 (by decide)

/-- C4: for `k < D * F` the second field of output element `k` is the input
frequency `f[k % F]` and the third field is the input thickness `d[k / F]`,
unchanged; for thicknesses `[1, 2]` and frequencies `[5, 10]` the echoed
`(d, f)` pairs are `(1,5), (1,10), (2,5), (2,10)` in that order. -/
theorem Cgamma_echo :
    (∀ (f d e1 e2 mu1 mu2 : List ℝ) (k : Nat), k < d.length * f.length →
      ∃ (fj dj : ℝ) (t : List ℝ),
        f[k % f.length]? = some fj ∧ d[k / f.length]? = some dj
          ∧ (Cgamma f d e1 e2 mu1 mu2).value[k]? = some (some t)
          ∧ t[1]? = some fj ∧ t[2]? = some dj)
    ∧ (Cgamma [5, 10] [1, 2] [10, 15] [1, 2] [1, 1] [0, 0]).value.map echoed
        = [some (1, 5), some (1, 10), some (2, 5), some (2, 10)] := by
  constructor
  · intro f d e1 e2 mu1 mu2 k hk
    obtain ⟨dj, hd, hval⟩ := Cgamma_get f d e1 e2 mu1 mu2 k hk
    have hF : 0 < f.length := by
      rcases Nat.eq_zero_or_pos f.length with h | h
      · rw [h] at hk; simp at hk
      · exact h
    have hj : k % f.length < f.length := Nat.mod_lt _ hF
    have g0 : f[k % f.length]? = some (f[k % f.length]) := List.getElem?_eq_getElem hj
    refine ⟨_, dj, _, g0, hd, hval, ?_, rfl⟩
    rw [readDouble_of_get g0]
    rfl
  · rw [Cgamma_value]
    rfl

theorem Cgamma_echo_witness :
    ∃ (fj dj : ℝ) (t : List ℝ),
      ([5, 10] : List ℝ)[3 % 2]? = some fj ∧ ([1, 2] : List ℝ)[3 / 2]? = some dj
        ∧ (Cgamma [5, 10] [1, 2] [10, 15] [1, 2] [1, 1] [0, 0]).value[3]? = some (some t)
        ∧ t[1]? = some fj ∧ t[2]? = some dj :=
  Cgamma_echo.1 [5, 10] [1, 2] [10, 15] [1, 2] [1, 1] [0, 0] 3 (by decide)

/-- C5, counterexample: with `F = 1` and a permittivity list of two entries
the call is not rejected; `gamma` returns the one-element result list and the
error indicator stays clear. -/
theorem gamma_accepts_longer_list :
    ([1, 2] : List ℝ).length ≠ ([1] : List ℝ).length
      ∧ ∃ o : PyOutcome, gamma [[1], [1], [1, 2], [0], [1], [0]] = some o
          ∧ o.err = false ∧ o.value = [some (triple 1 1 1 0 1 0)] := by
  refine ⟨by decide, Cgamma [1] [1] [1, 2] [0] [1] [0], rfl, ?_, ?_⟩
  · exact Cgamma_err_false [1] [1] [1, 2] [0] [1] [0] (by decide) (by decide) (by decide)
      (by decide)
  · rw [Cgamma_value]
    rfl

/-- C5, amended: `gamma`/`Cgamma` make no length check; `F` is the length of
the frequency list, and whenever each coefficient list has at least `F`
entries a result list of `D * F` elements is returned without error, computed
from the first `F` entries of each coefficient list. -/
theorem gamma_reads_first_F (f d e1 e2 mu1 mu2 : List ℝ) (h1 : f.length ≤ e1.length)
    (h2 : f.length ≤ e2.length) (h3 : f.length ≤ mu1.length) (h4 : f.length ≤ mu2.length) :
    ∃ o : PyOutcome, gamma [f, d, e1, e2, mu1, mu2] = some o
      ∧ o.err = false ∧ o.value.length = d.length * f.length
      ∧ o.value = (Cgamma f d (e1.take f.length) (e2.take f.length) (mu1.take f.length)
          (mu2.take f.length)).value := by
  refine ⟨Cgamma f d e1 e2 mu1 mu2, rfl, Cgamma_err_false f d e1 e2 mu1 mu2 h1 h2 h3 h4,
    Cgamma_length f d e1 e2 mu1 mu2, ?_⟩
  rw [Cgamma_value, Cgamma_value, gridRow_take]

theorem gamma_reads_first_F_witness :
    ∃ o : PyOutcome, gamma [[5], [1, 2], [10, 15], [1], [1, 1, 1], [0]] = some o
      ∧ o.err = false ∧ o.value.length = ([1, 2] : List ℝ).length * ([5] : List ℝ).length
      ∧ o.value = (Cgamma [5] [1, 2] (List.take ([5] : List ℝ).length [10, 15])
          (List.take ([5] : List ℝ).length [1]) (List.take ([5] : List ℝ).length [1, 1, 1])
          (List.take ([5] : List ℝ).length [0])).value :=
  gamma_reads_first_F [5] [1, 2] [10, 15] [1] [1, 1, 1] [0] (by decide) (by decide)
    (by decide) (by decide)

/-- C6: in free space without loss (`e1 = mu1 = 1`, `e2 = mu2 = 0`) the
reflection coefficient has magnitude `1` and `reflection_loss` is `0` dB, for
every frequency and thickness. -/
theorem free_space_loss (f d : ℝ) :
    Complex.abs (reflectionCoeff f d 1 0 1 0) = 1 ∧ reflection_loss f d 1 0 1 0 = 0 :=
  lossless_loss f d one_pos one_pos

/-- C8: for a passive material and non-negative geometry (`e1 > 0`, `mu1 > 0`,
`e2 ≥ 0`, `mu2 ≥ 0`, `f ≥ 0`, `d ≥ 0`) the real part of `η tanh (i φ √(εr μr))`
is non-negative, the reflection coefficient has magnitude at most `1` and
`reflection_loss` is at most `0` dB. -/
theorem passive_loss_nonpos (f d e1 e2 mu1 mu2 : ℝ) (hf : 0 ≤ f) (hd : 0 ≤ d)
    (he1 : 0 < e1) (he2 : 0 ≤ e2) (hm1 : 0 < mu1) (hm2 : 0 ≤ mu2) :
    0 ≤ (etaGamma f d e1 e2 mu1 mu2).re
      ∧ Complex.abs (reflectionCoeff f d e1 e2 mu1 mu2) ≤ 1
      ∧ reflection_loss f d e1 e2 mu1 mu2 ≤ 0 :=
  ⟨passive_etaGamma_re hf hd he1 he2 hm1 hm2, (passive_loss hf hd he1 he2 hm1 hm2).1,
    (passive_loss hf hd he1 he2 hm1 hm2).2⟩

theorem passive_loss_nonpos_witness :
    (0 : ℝ) ≤ 10 ∧ (0 : ℝ) ≤ 2 ∧ (0 : ℝ) < 15 ∧ (0 : ℝ) ≤ 2 ∧ (0 : ℝ) < 1 ∧ (0 : ℝ) ≤ 0
      ∧ 0 ≤ (etaGamma 10 2 15 2 1 0).re
      ∧ Complex.abs (reflectionCoeff 10 2 15 2 1 0) ≤ 1
      ∧ reflection_loss 10 2 15 2 1 0 ≤ 0 :=
  ⟨by norm_num, by norm_num, by norm_num, by norm_num, by norm_num, le_refl 0,
    passive_loss_nonpos 10 2 15 2 1 0 (by norm_num) (by norm_num) (by norm_num)
      (by norm_num) (by norm_num) (le_refl 0)⟩

/-- C9: for a lossless material (`e1 > 0`, `mu1 > 0`, `e2 = mu2 = 0`) `η` is a
positive real, `tanh (i φ √(e1 mu1))` is purely imaginary, the reflection
coefficient has magnitude `1` and `reflection_loss` is `0` dB. -/
theorem lossless_loss_zero (f d e1 mu1 : ℝ) (he : 0 < e1) (hm : 0 < mu1) :
    (∃ r : ℝ, 0 < r ∧ principalSqrt (lossy mu1 0 / lossy e1 0) = (r : ℂ))
      ∧ (Complex.tanh (Complex.I * (phase f d : ℂ)
          * principalSqrt (lossy e1 0 * lossy mu1 0))).re = 0
      ∧ Complex.abs (reflectionCoeff f d e1 0 mu1 0) = 1
      ∧ reflection_loss f d e1 0 mu1 0 = 0 :=
  ⟨⟨Real.sqrt (mu1 / e1), Real.sqrt_pos.mpr (div_pos hm he), lossless_eta he hm⟩,
    lossless_gamma_re f d he hm, (lossless_loss f d he hm).1, (lossless_loss f d he hm).2⟩

theorem lossless_loss_zero_witness :
    (0 : ℝ) < 15 ∧ (0 : ℝ) < 2
      ∧ Complex.abs (reflectionCoeff 10 2 15 0 2 0) = 1
      ∧ reflection_loss 10 2 15 0 2 0 = 0 :=
  ⟨by norm_num, by norm_num,
    (lossless_loss_zero 10 2 15 2 (by norm_num) (by norm_num)).2.2.1,
    (lossless_loss_zero 10 2 15 2 (by norm_num) (by norm_num)).2.2.2⟩

/-- C10: the output for thicknesses `d1 ++ d2` is the output for `d1` followed
by the output for `d2`, and the block of `F` results of one thickness is the
output for that thickness alone, whatever the other thicknesses are. -/
theorem Cgamma_distributes_over_append (f d1 d2 e1 e2 mu1 mu2 : List ℝ) :
    (Cgamma f (d1 ++ d2) e1 e2 mu1 mu2).value
        = (Cgamma f d1 e1 e2 mu1 mu2).value ++ (Cgamma f d2 e1 e2 mu1 mu2).value
      ∧ ∀ x : ℝ, ((Cgamma f (d1 ++ x :: d2) e1 e2 mu1 mu2).value.drop
            (d1.length * f.length)).take f.length
          = (Cgamma f [x] e1 e2 mu1 mu2).value := by
  refine ⟨Cgamma_append_value f d1 d2 e1 e2 mu1 mu2, ?_⟩
  intro x
  have hx : x :: d2 = [x] ++ d2 := rfl
  rw [Cgamma_append_value, hx, Cgamma_append_value, ← Cgamma_length f d1 e1 e2 mu1 mu2,
    List.drop_left]
  have hlen : f.length = (Cgamma f [x] e1 e2 mu1 mu2).value.length := by
    rw [Cgamma_length]
    simp
  nth_rewrite 1 [hlen]
  rw [List.take_left]

end LibRL
